import Mathlib

/-!
Verification development for `src/examples/nushell.rs`: a logos-driven
tokenizer for a nushell-like syntax, wired to a diagnostic reporter.

Source text is modelled as `List Char`; positions and spans are character
offsets into that list (the source is ASCII in every concrete case treated
here, so character offsets coincide with byte offsets).  The token
declarations, their regexes, priorities and callbacks are translated from
the `#[derive(Logos)]` enum in the source; the matching engine itself
(maximal munch with priority tie-break, whitespace skipping) is not part of
the example file and is modelled from the spec.  The `f64` payload of
`Token::Float` is modelled as the exact rational value of the literal
(IEEE-754 rounding is abstracted away); the `i64` payload of `Token::Int`
is modelled as a mathematical integer together with the 64-bit signed
range check that `str::parse::<i64>` performs.
-/

/-- The double-quote character `"`. -/
def dquote : Char := Char.ofNat 34

/-- The single-quote character. -/
def squote : Char := Char.ofNat 39

/-- The backtick character. -/
def btick : Char := Char.ofNat 96

/-- The backslash character. -/
def bslash : Char := Char.ofNat 92

/-- The form-feed character. -/
def ffeed : Char := Char.ofNat 12

/-- Characters of the skip regex `[ \t\r\f]+` (line 26 of the source). -/
def isWs (c : Char) : Bool :=
  c = ' ' || c = '\t' || c = '\r' || c = ffeed

/-- Length of the maximal leading run of skip-whitespace characters. -/
def wsRun : List Char → Nat
  | [] => 0
  | c :: rest => if isWs c then wsRun rest + 1 else 0

/-- Length of the maximal leading run of ASCII digits. -/
def digitRun : List Char → Nat
  | [] => 0
  | c :: rest => if c.isDigit then digitRun rest + 1 else 0

/-- Value of a digit string, most significant digit first. -/
def natOfDigits (l : List Char) : Nat :=
  l.foldl (fun a c => a * 10 + (c.toNat - 48)) 0

/-- The characters allowed after a backslash inside a double-quoted
string: the class `["\\bnfrt]` of the `Token::String` regex. -/
def isEscapeChar (c : Char) : Bool :=
  c = dquote || c = bslash || c = 'b' || c = 'n' || c = 'f' || c = 'r' || c = 't'

/-- Match the part of the `Token::String` regex after the opening quote:
`([^"\\]|\\["\\bnfrt])*"`.  Returns the number of characters consumed
(body plus closing quote), or `none` when the regex cannot match. -/
def matchStringBody : List Char → Option Nat
  | [] => none
  | [c] => if c = dquote then some 1 else none
  | c :: d :: rest2 =>
    if c = dquote then some 1
    else if c = bslash then
      (if isEscapeChar d then (matchStringBody rest2).map (· + 2) else none)
    else (matchStringBody (d :: rest2)).map (· + 1)

/-- Match the `Token::String` regex `"([^"\\]|\\["\\bnfrt])*"` at the head
of the input; returns the length of the match. -/
def matchString : List Char → Option Nat
  | [] => none
  | c :: rest => if c = dquote then (matchStringBody rest).map (· + 1) else none

/-- Match `[^q]*q` for a closing delimiter `q`. -/
def closeRun (q : Char) : List Char → Option Nat
  | [] => none
  | c :: rest => if c = q then some 1 else (closeRun q rest).map (· + 1)

/-- Match `q[^q]*q` at the head of the input. -/
def matchQuoted (q : Char) : List Char → Option Nat
  | [] => none
  | c :: rest => if c = q then (closeRun q rest).map (· + 1) else none

/-- Match the `Token::SingleQuoted` regex `'[^']*'`. -/
def matchSingle (l : List Char) : Option Nat := matchQuoted squote l

/-- Match the `Token::BareWord` regex (backtick, non-backticks, backtick). -/
def matchBare (l : List Char) : Option Nat := matchQuoted btick l

/-- Match the unsigned integer shape `0|[1-9]\d*` (maximal munch). -/
def matchIntShape : List Char → Option Nat
  | [] => none
  | c :: rest =>
    if c = '0' then some 1
    else if c.isDigit then some (digitRun rest + 1)
    else none

/-- Match the `Token::Int` regex `-?(?:0|[1-9]\d*)` (maximal munch). -/
def matchInt : List Char → Option Nat
  | [] => none
  | c :: rest =>
    if c = '-' then (matchIntShape rest).map (· + 1) else matchIntShape (c :: rest)

/-- Length matched by the optional fraction `(?:\.\d+)?` of the Float
regex: `0` when it does not match (maximal munch on the digits). -/
def matchFrac : List Char → Nat
  | [] => 0
  | c :: rest =>
    if c = '.' then (if digitRun rest = 0 then 0 else digitRun rest + 1) else 0

/-- Length matched by the optional exponent `(?:[eE][+-]?\d+)?` of the
Float regex: `0` when it does not match. -/
def matchExp : List Char → Nat
  | [] => 0
  | [_] => 0
  | c :: d :: rest2 =>
    if c = 'e' || c = 'E' then
      if d = '+' || d = '-' then (if digitRun rest2 = 0 then 0 else digitRun rest2 + 2)
      else (if digitRun (d :: rest2) = 0 then 0 else digitRun (d :: rest2) + 1)
    else 0

/-- Match the `Token::Float` regex
`-?(?:0|[1-9]\d*)(?:\.\d+)?(?:[eE][+-]?\d+)?` (maximal munch). -/
def matchFloat (l : List Char) : Option Nat :=
  (matchInt l).map
    (fun n => n + matchFrac (l.drop n) + matchExp (l.drop (n + matchFrac (l.drop n))))

/-- Match the `Token::Newline` regex `\n`. -/
def matchNewline : List Char → Option Nat
  | [] => none
  | c :: _ => if c = '\n' then some 1 else none

/-- The six token variants of the source enum, as classification kinds. -/
inductive TokKind where
  | string
  | singleQuoted
  | bareWord
  | int
  | float
  | newline
deriving DecidableEq

/-- Matching priorities: the three quoted forms carry the explicit
`priority = 20` from the source, `Int` carries the explicit `priority = 3`,
and `Float` and `Newline` keep logos's computed default (2, derived from a
shortest match of one character). -/
def prio : TokKind → Nat
  | .string => 20
  | .singleQuoted => 20
  | .bareWord => 20
  | .int => 3
  | .float => 2
  | .newline => 2

/-- Modelled from the spec: disambiguation between two candidate matches —
the longer match wins, and on equal length the higher priority wins
(spec section 4.1, "longest/priority-based matching"). -/
def pick (a b : Option (TokKind × Nat)) : Option (TokKind × Nat) :=
  match a, b with
  | none, b => b
  | some x, none => some x
  | some (ka, na), some (kb, nb) =>
    if na < nb then some (kb, nb)
    else if nb < na then some (ka, na)
    else if prio kb ≤ prio ka then some (ka, na) else some (kb, nb)

/-- Modelled from the spec: the matching policy of the logos engine at one
position — every token pattern is tried and the longest match wins, with
priority breaking ties (spec section 4.1).  Returns the winning kind and
match length, or `none` when no pattern matches. -/
def selectPattern (l : List Char) : Option (TokKind × Nat) :=
  pick (pick (pick (pick (pick
    ((matchString l).map (fun n => (TokKind.string, n)))
    ((matchSingle l).map (fun n => (TokKind.singleQuoted, n))))
    ((matchBare l).map (fun n => (TokKind.bareWord, n))))
    ((matchInt l).map (fun n => (TokKind.int, n))))
    ((matchFloat l).map (fun n => (TokKind.float, n))))
    ((matchNewline l).map (fun n => (TokKind.newline, n)))

/-- Digit-string parse shared by the integer callbacks: `none` on an empty
string or a non-digit character, the numeric value otherwise. -/
def digitsVal (l : List Char) : Option Nat :=
  if l.isEmpty || !(l.all Char.isDigit) then none else some (natOfDigits l)

/-- Smallest `i64` value. -/
def i64Min : Int := -(2 ^ 63)

/-- Largest `i64` value. -/
def i64Max : Int := 2 ^ 63 - 1

/-- Model of `str::parse::<i64>` on the slices this lexer produces
(optional leading minus, then digits): fails on overflow of the 64-bit
signed range, succeeds with the exact value otherwise.  This is the
callback of `Token::Int` (line 37 of the source); its `unwrap` panics
exactly when this returns `none`. -/
def parseI64 : List Char → Option Int
  | [] => none
  | c :: rest =>
    if c = '-' then
      (digitsVal rest).bind (fun n => if i64Min ≤ -(n : Int) then some (-(n : Int)) else none)
    else
      (digitsVal (c :: rest)).bind (fun n => if (n : Int) ≤ i64Max then some (n : Int) else none)

/-- Strip an optional leading sign, returning its value and the rest. -/
def stripSign : List Char → ℚ × List Char
  | [] => (1, [])
  | c :: rest =>
    if c = '-' then (-1, rest) else if c = '+' then (1, rest) else (1, c :: rest)

/-- Strip an optional leading sign (integer-valued), for the exponent. -/
def stripSignInt : List Char → Int × List Char
  | [] => (1, [])
  | c :: rest =>
    if c = '-' then (-1, rest) else if c = '+' then (1, rest) else (1, c :: rest)

/-- Parse an optional fraction `.digits*` (digits may be empty, as Rust
allows `1.`), returning its value and the rest. -/
def parseFrac : List Char → ℚ × List Char
  | [] => (0, [])
  | c :: rest =>
    if c = '.' then
      ((natOfDigits (rest.take (digitRun rest)) : ℚ) / (10 : ℚ) ^ digitRun rest,
        rest.drop (digitRun rest))
    else (0, c :: rest)

/-- Parse what may follow the mantissa: nothing (exponent 0), or
`[eE][+-]?digits+` consuming the whole remainder; anything else is a parse
error. -/
def parseExpTail : List Char → Option Int
  | [] => some 0
  | c :: rest =>
    if c = 'e' || c = 'E' then
      (fun sr : Int × List Char =>
        if digitRun sr.2 = 0 then none
        else if sr.2.drop (digitRun sr.2) = [] then
          some (sr.1 * (natOfDigits (sr.2.take (digitRun sr.2)) : Int))
        else none) (stripSignInt rest)
    else none

/-- Model of `str::parse::<f64>` restricted to numeric literals of the
form `[+-]?\d+(\.\d*)?([eE][+-]?\d+)?` (a sublanguage of what Rust
accepts, and a superlanguage of the Float regex), with the value taken as
an exact rational; fails on any other shape.  This is the callback of
`Token::Float` (line 40 of the source); its `unwrap` panics exactly when
this returns `none`. -/
def parseFloatQ (l : List Char) : Option ℚ :=
  let sgn := (stripSign l).1
  let l1 := (stripSign l).2
  if digitRun l1 = 0 then none
  else
    let ip : ℚ := (natOfDigits (l1.take (digitRun l1)) : ℚ)
    let l2 := l1.drop (digitRun l1)
    let fp := (parseFrac l2).1
    let l3 := (parseFrac l2).2
    (parseExpTail l3).map (fun ex => sgn * (ip + fp) * (10 : ℚ) ^ ex)

/-- The token enum of the source (payloads: matched slices for the three
quoted forms, exact numeric values for `Int`/`Float`, the literal newline
character for `Newline`). -/
inductive Token where
  | String (s : List Char)
  | SingleQuoted (s : List Char)
  | BareWord (s : List Char)
  | Int (i : ℤ)
  | Float (q : ℚ)
  | Newline (c : Char)
deriving DecidableEq

/-- Run the callback of the winning variant on the matched slice, as the
derived lexer does: the quoted forms return `lex.slice()`, the numeric
forms parse the slice (returning `none` models the `unwrap` panic), and
`Newline` returns the constant `'\n'`. -/
def mkToken (k : TokKind) (slice : List Char) : Option Token :=
  match k with
  | .string => some (Token.String slice)
  | .singleQuoted => some (Token.SingleQuoted slice)
  | .bareWord => some (Token.BareWord slice)
  | .int => (parseI64 slice).map Token.Int
  | .float => (parseFloatQ slice).map Token.Float
  | .newline => some (Token.Newline '\n')

/-- One pull from the lexer. -/
inductive Step where
  | tok (t : Token) (startPos endPos : Nat)
  | err (startPos endPos : Nat)
  | eoi (pos : Nat)
  | panicked
deriving DecidableEq

/-- Position reached after skipping the maximal whitespace run at `pos`. -/
def skipWs (src : List Char) (pos : Nat) : Nat := pos + wsRun (src.drop pos)

/-- Modelled from the spec: one pull of `Lexer::next` — skip the maximal
run of `[ \t\r\f]` characters, signal end-of-input when nothing remains,
otherwise classify by the matching policy; an unmatched position is a
lexical error whose span starts at that exact offset (spec section 4.1).
Token production then runs the source's callback on the matched slice. -/
def nextToken (src : List Char) (pos : Nat) : Step :=
  match src.drop (skipWs src pos) with
  | [] => Step.eoi (skipWs src pos)
  | c :: rest =>
    match selectPattern (c :: rest) with
    | none => Step.err (skipWs src pos) (skipWs src pos + 1)
    | some (k, n) =>
      match mkToken k ((c :: rest).take n) with
      | some t => Step.tok t (skipWs src pos) (skipWs src pos + n)
      | none => Step.panicked

lemma wsRun_le (l : List Char) : wsRun l ≤ l.length := by
  induction l with
  | nil => simp [wsRun]
  | cons c rest ih =>
    simp only [wsRun, List.length_cons]
    split <;> omega

lemma digitRun_le (l : List Char) : digitRun l ≤ l.length := by
  induction l with
  | nil => simp [digitRun]
  | cons c rest ih =>
    simp only [digitRun, List.length_cons]
    split <;> omega

lemma matchStringBody_bounds_aux :
    ∀ (k : Nat) (l : List Char) (n : Nat), l.length ≤ k →
      matchStringBody l = some n → 1 ≤ n ∧ n ≤ l.length := by
  intro k
  induction k with
  | zero =>
    intro l n hl h
    have : l = [] := List.eq_nil_of_length_eq_zero (Nat.le_zero.mp hl)
    subst this
    simp [matchStringBody] at h
  | succ k ih =>
    intro l n hl h
    match l with
    | [] => simp [matchStringBody] at h
    | [c] =>
      unfold matchStringBody at h
      split_ifs at h
      · simp only [Option.some.injEq] at h
        simp only [List.length_cons, List.length_nil]
        omega
    | c :: d :: rest2 =>
      unfold matchStringBody at h
      split_ifs at h with h1 h2 h3
      · simp only [Option.some.injEq] at h
        simp only [List.length_cons]
        omega
      · obtain ⟨m, hm, hmn⟩ := Option.map_eq_some'.mp h
        replace hmn : m + 2 = n := hmn
        have hb := ih rest2 m (by simp only [List.length_cons] at hl; omega) hm
        simp only [List.length_cons]
        omega
      · obtain ⟨m, hm, hmn⟩ := Option.map_eq_some'.mp h
        replace hmn : m + 1 = n := hmn
        have hb := ih (d :: rest2) m (by simp only [List.length_cons] at hl ⊢; omega) hm
        simp only [List.length_cons] at hb ⊢
        omega

lemma matchStringBody_bounds {l : List Char} {n : Nat}
    (h : matchStringBody l = some n) : 1 ≤ n ∧ n ≤ l.length :=
  matchStringBody_bounds_aux l.length l n le_rfl h

lemma matchString_bounds {l : List Char} {n : Nat}
    (h : matchString l = some n) : 1 ≤ n ∧ n ≤ l.length := by
  cases l with
  | nil => simp [matchString] at h
  | cons c rest =>
    simp only [matchString] at h
    split_ifs at h
    · obtain ⟨m, hm, hmn⟩ := Option.map_eq_some'.mp h
      replace hmn : m + 1 = n := hmn
      have hb := matchStringBody_bounds hm
      simp only [List.length_cons]
      omega

lemma closeRun_bounds {q : Char} :
    ∀ {l : List Char} {n : Nat}, closeRun q l = some n → 1 ≤ n ∧ n ≤ l.length := by
  intro l
  induction l with
  | nil => intro n h; simp [closeRun] at h
  | cons c rest ih =>
    intro n h
    unfold closeRun at h
    split_ifs at h
    · simp only [Option.some.injEq] at h
      simp only [List.length_cons]
      omega
    · obtain ⟨m, hm, hmn⟩ := Option.map_eq_some'.mp h
      replace hmn : m + 1 = n := hmn
      have hb := ih hm
      simp only [List.length_cons]
      omega

lemma matchQuoted_bounds {q : Char} {l : List Char} {n : Nat}
    (h : matchQuoted q l = some n) : 1 ≤ n ∧ n ≤ l.length := by
  cases l with
  | nil => simp [matchQuoted] at h
  | cons c rest =>
    simp only [matchQuoted] at h
    split_ifs at h
    · obtain ⟨m, hm, hmn⟩ := Option.map_eq_some'.mp h
      replace hmn : m + 1 = n := hmn
      have hb := closeRun_bounds hm
      simp only [List.length_cons]
      omega

lemma matchIntShape_bounds {l : List Char} {n : Nat}
    (h : matchIntShape l = some n) : 1 ≤ n ∧ n ≤ l.length := by
  cases l with
  | nil => simp [matchIntShape] at h
  | cons c rest =>
    simp only [matchIntShape] at h
    have hd := digitRun_le rest
    split_ifs at h
    · simp only [Option.some.injEq] at h
      simp only [List.length_cons]
      omega
    · simp only [Option.some.injEq] at h
      simp only [List.length_cons]
      omega

lemma matchInt_bounds {l : List Char} {n : Nat}
    (h : matchInt l = some n) : 1 ≤ n ∧ n ≤ l.length := by
  cases l with
  | nil => simp [matchInt] at h
  | cons c rest =>
    simp only [matchInt] at h
    split_ifs at h
    · obtain ⟨m, hm, hmn⟩ := Option.map_eq_some'.mp h
      replace hmn : m + 1 = n := hmn
      have hb := matchIntShape_bounds hm
      simp only [List.length_cons]
      omega
    · exact matchIntShape_bounds h

lemma matchFrac_le (l : List Char) : matchFrac l ≤ l.length := by
  cases l with
  | nil => simp [matchFrac]
  | cons c rest =>
    simp only [matchFrac]
    have hd := digitRun_le rest
    split_ifs <;> simp only [List.length_cons] <;> omega

lemma matchExp_le (l : List Char) : matchExp l ≤ l.length := by
  match l with
  | [] => simp [matchExp]
  | [c] => simp [matchExp]
  | c :: d :: rest2 =>
    simp only [matchExp]
    have h2 := digitRun_le rest2
    have h3 := digitRun_le (d :: rest2)
    simp only [List.length_cons] at h3 ⊢
    split_ifs <;> omega

lemma matchFloat_bounds {l : List Char} {n : Nat}
    (h : matchFloat l = some n) : 1 ≤ n ∧ n ≤ l.length := by
  simp only [matchFloat] at h
  obtain ⟨m, hm, hmn⟩ := Option.map_eq_some'.mp h
  replace hmn : m + matchFrac (l.drop m) + matchExp (l.drop (m + matchFrac (l.drop m))) = n := hmn
  have hb := matchInt_bounds hm
  have hf := matchFrac_le (l.drop m)
  have he := matchExp_le (l.drop (m + matchFrac (l.drop m)))
  simp only [List.length_drop] at hf he
  omega

lemma matchNewline_bounds {l : List Char} {n : Nat}
    (h : matchNewline l = some n) : 1 ≤ n ∧ n ≤ l.length := by
  cases l with
  | nil => simp [matchNewline] at h
  | cons c rest =>
    simp only [matchNewline] at h
    split_ifs at h
    · simp only [Option.some.injEq] at h
      simp only [List.length_cons]
      omega

lemma pick_eq_some {a b : Option (TokKind × Nat)} {x : TokKind × Nat}
    (h : pick a b = some x) : a = some x ∨ b = some x := by
  cases a with
  | none => right; simpa [pick] using h
  | some xa =>
    cases b with
    | none => left; simpa [pick] using h
    | some xb =>
      obtain ⟨ka, na⟩ := xa
      obtain ⟨kb, nb⟩ := xb
      simp only [pick] at h
      split_ifs at h
      · right; exact h
      · left; exact h
      · left; exact h
      · right; exact h

lemma selectPattern_bounds {l : List Char} {k : TokKind} {n : Nat}
    (h : selectPattern l = some (k, n)) : 1 ≤ n ∧ n ≤ l.length := by
  unfold selectPattern at h
  rcases pick_eq_some h with h5 | h5
  · rcases pick_eq_some h5 with h4 | h4
    · rcases pick_eq_some h4 with h3 | h3
      · rcases pick_eq_some h3 with h2 | h2
        · rcases pick_eq_some h2 with h1 | h1
          · obtain ⟨m, hm, hmn⟩ := Option.map_eq_some'.mp h1
            cases hmn
            exact matchString_bounds hm
          · obtain ⟨m, hm, hmn⟩ := Option.map_eq_some'.mp h1
            cases hmn
            exact matchQuoted_bounds hm
        · obtain ⟨m, hm, hmn⟩ := Option.map_eq_some'.mp h2
          cases hmn
          exact matchQuoted_bounds hm
      · obtain ⟨m, hm, hmn⟩ := Option.map_eq_some'.mp h3
        cases hmn
        exact matchInt_bounds hm
    · obtain ⟨m, hm, hmn⟩ := Option.map_eq_some'.mp h4
      cases hmn
      exact matchFloat_bounds hm
  · obtain ⟨m, hm, hmn⟩ := Option.map_eq_some'.mp h5
    cases hmn
    exact matchNewline_bounds hm

lemma nextToken_tok_bounds {src : List Char} {pos : Nat} {t : Token} {s e : Nat}
    (h : nextToken src pos = Step.tok t s e) :
    pos ≤ s ∧ s < e ∧ e ≤ src.length := by
  unfold nextToken at h
  split at h
  · exact absurd h (by simp)
  · rename_i c rest hd
    split at h
    · exact absurd h (by simp)
    · rename_i k n hsel
      split at h
      · rename_i t2 hmk
        cases h
        have hb := selectPattern_bounds hsel
        have hplt : skipWs src pos < src.length := by
          by_contra hc
          have hnil : src.drop (skipWs src pos) = [] :=
            List.drop_eq_nil_of_le (by omega)
          rw [hnil] at hd
          exact List.noConfusion hd
        have hlen : (c :: rest).length = src.length - skipWs src pos := by
          rw [← hd, List.length_drop]
        have hpos : pos ≤ skipWs src pos := Nat.le_add_right _ _
        simp only [List.length_cons] at hlen hb
        refine ⟨hpos, ?_, ?_⟩ <;> omega
      · exact absurd h (by simp)

lemma nextToken_eoi_of_ge {src : List Char} {pos : Nat} (h : src.length ≤ pos) :
    nextToken src pos = Step.eoi (skipWs src pos) := by
  have h1 : src.drop pos = [] := List.drop_eq_nil_of_le h
  have h2 : skipWs src pos = pos := by simp [skipWs, h1, wsRun]
  have h3 : src.drop (skipWs src pos) = [] := by rw [h2]; exact h1
  simp [nextToken, h3]

lemma nextToken_err_spec {src : List Char} {pos s e : Nat}
    (h : nextToken src pos = Step.err s e) :
    s = skipWs src pos ∧ e = s + 1 ∧ pos ≤ s ∧ s < src.length ∧
      selectPattern (src.drop s) = none ∧ src.drop s ≠ [] := by
  unfold nextToken at h
  split at h
  · exact absurd h (by simp)
  · rename_i c rest hd
    split at h
    · cases h
      rename_i hsel
      refine ⟨rfl, rfl, Nat.le_add_right _ _, ?_, ?_, ?_⟩
      · by_contra hc
        have hnil : src.drop (skipWs src pos) = [] := List.drop_eq_nil_of_le (by omega)
        rw [hnil] at hd
        exact List.noConfusion hd
      · rw [hd]
        exact hsel
      · rw [hd]
        simp
    · rename_i k n hsel
      split at h
      · exact absurd h (by simp)
      · exact absurd h (by simp)

/-- The terminal condition of a full scan. -/
inductive Outcome where
  | eoi
  | lexError (startPos endPos : Nat)
  | panicked
deriving DecidableEq

/-- The full token stream of one scan: pull tokens (with their spans) until
end-of-input, a lexical error, or a callback panic ends the stream. -/
def scan (src : List Char) (pos : Nat) : List (Token × Nat × Nat) × Outcome :=
  match h : nextToken src pos with
  | Step.eoi _ => ([], Outcome.eoi)
  | Step.err s e => ([], Outcome.lexError s e)
  | Step.panicked => ([], Outcome.panicked)
  | Step.tok t s e =>
    let r := scan src e
    ((t, s, e) :: r.1, r.2)
termination_by src.length - pos
decreasing_by
  have hb := nextToken_tok_bounds h
  omega

/-- Re-running the scan over the same unmodified source, as `main` would if
invoked twice: each run builds a fresh lexer over the same buffer. -/
def scanTwice (src : List Char) :
    (List (Token × Nat × Nat) × Outcome) × (List (Token × Nat × Nat) × Outcome) :=
  (scan src 0, scan src 0)

lemma scan_eoi {src : List Char} {pos p : Nat} (h : nextToken src pos = Step.eoi p) :
    scan src pos = ([], Outcome.eoi) := by
  conv_lhs => unfold scan
  split
  · rfl
  · rename_i s e heq; rw [heq] at h; exact Step.noConfusion h
  · rename_i heq; rw [heq] at h; exact Step.noConfusion h
  · rename_i t s e heq; rw [heq] at h; exact Step.noConfusion h

lemma scan_err {src : List Char} {pos s e : Nat} (h : nextToken src pos = Step.err s e) :
    scan src pos = ([], Outcome.lexError s e) := by
  conv_lhs => unfold scan
  split
  · rename_i p heq; rw [heq] at h; exact Step.noConfusion h
  · rename_i s2 e2 heq
    rw [heq] at h
    obtain ⟨rfl, rfl⟩ : s2 = s ∧ e2 = e := by cases h; exact ⟨rfl, rfl⟩
    rfl
  · rename_i heq; rw [heq] at h; exact Step.noConfusion h
  · rename_i t s2 e2 heq; rw [heq] at h; exact Step.noConfusion h

lemma scan_pan {src : List Char} {pos : Nat} (h : nextToken src pos = Step.panicked) :
    scan src pos = ([], Outcome.panicked) := by
  conv_lhs => unfold scan
  split
  · rename_i p heq; rw [heq] at h; exact Step.noConfusion h
  · rename_i s e heq; rw [heq] at h; exact Step.noConfusion h
  · rfl
  · rename_i t s e heq; rw [heq] at h; exact Step.noConfusion h

lemma scan_cons {src : List Char} {pos : Nat} {t : Token} {s e : Nat}
    (h : nextToken src pos = Step.tok t s e) :
    scan src pos = ((t, s, e) :: (scan src e).1, (scan src e).2) := by
  conv_lhs => unfold scan
  split
  · rename_i p heq; rw [heq] at h; exact Step.noConfusion h
  · rename_i s2 e2 heq; rw [heq] at h; exact Step.noConfusion h
  · rename_i heq; rw [heq] at h; exact Step.noConfusion h
  · rename_i t2 s2 e2 heq
    rw [heq] at h
    obtain ⟨rfl, rfl, rfl⟩ : t2 = t ∧ s2 = s ∧ e2 = e := by cases h; exact ⟨rfl, rfl, rfl⟩
    rfl

/-- The `Value` enum of the source: the display-oriented mirror of `Token`. -/
inductive Value where
  | Float (q : ℚ)
  | Int (i : ℤ)
  | String (s : List Char)
  | SingleQuoted (s : List Char)
  | BareWord (s : List Char)
  | Newline (c : Char)
deriving DecidableEq

/-- The `Ok` arms of the `match` in `parse_value` (lines 74-79 of the
source): each token variant is wrapped in the matching `Value` variant. -/
def toValue : Token → Value
  | Token.Float q => Value.Float q
  | Token.String s => Value.String s
  | Token.SingleQuoted s => Value.SingleQuoted s
  | Token.BareWord s => Value.BareWord s
  | Token.Newline c => Value.Newline c
  | Token.Int i => Value.Int i

/-- Result of one `parse_value` call: `Ok(value)`, the `("EMPTY", span)`
error, the `("unexpected token here (context: value)", span)` error, or a
callback panic propagating out.  The two error messages of the source are
modelled as distinct constructors carrying their spans. -/
inductive PV where
  | ok (v : Value) (startPos endPos : Nat)
  | errEmpty (startPos endPos : Nat)
  | errUnexpected (startPos endPos : Nat)
  | panicked
deriving DecidableEq

/-- `parse_value` (lines 69-88 of the source) together with the lexer
cursor after the call: `lexer.next()` returning `None` yields the `EMPTY`
error, a lexer error (`Err(_)`, the `_` arm of the match) yields the
`unexpected token` error with `lexer.span()`, and a token yields the
wrapped value. -/
def parse_value (src : List Char) (pos : Nat) : PV × Nat :=
  match nextToken src pos with
  | Step.eoi p => (PV.errEmpty p p, p)
  | Step.err s e => (PV.errUnexpected s e, e)
  | Step.tok t s e => (PV.ok (toValue t) s e, e)
  | Step.panicked => (PV.panicked, pos)

lemma parse_value_ok_bounds {src : List Char} {pos : Nat} {v : Value} {s e p : Nat}
    (h : parse_value src pos = (PV.ok v s e, p)) : pos < p ∧ p ≤ src.length := by
  unfold parse_value at h
  split at h
  · simp at h
  · simp at h
  · rename_i t s2 e2 heq
    have hb := nextToken_tok_bounds heq
    simp only [Prod.mk.injEq, PV.ok.injEq] at h
    obtain ⟨⟨hv, hs, he⟩, hp⟩ := h
    omega
  · simp at h

/-- How the `main` loop terminates: normal exit after `EMPTY`, a rendered
diagnostic (with its span) followed by exit, or a callback panic. -/
inductive ExitKind where
  | normal
  | diag (startPos endPos : Nat)
  | panicked
deriving DecidableEq

/-- The `loop` of `main` (lines 97-125 of the source): `Ok(value)` prints
the value and continues, the `EMPTY` error breaks with no diagnostic, any
other error renders one diagnostic with its span and breaks.  Returns the
printed values in order and the way the loop ended. -/
def mainLoop (src : List Char) (pos : Nat) : List Value × ExitKind :=
  match h : parse_value src pos with
  | (PV.ok v _ _, p) =>
    let r := mainLoop src p
    (v :: r.1, r.2)
  | (PV.errEmpty _ _, _) => ([], ExitKind.normal)
  | (PV.errUnexpected s e, _) => ([], ExitKind.diag s e)
  | (PV.panicked, _) => ([], ExitKind.panicked)
termination_by src.length - pos
decreasing_by
  have hb := parse_value_ok_bounds h
  omega

/-- The exit of the driver determined by the outcome of the scan. -/
def exitOf : Outcome → ExitKind
  | Outcome.eoi => ExitKind.normal
  | Outcome.lexError s e => ExitKind.diag s e
  | Outcome.panicked => ExitKind.panicked

lemma mainLoop_empty {src : List Char} {pos p : Nat} (h : nextToken src pos = Step.eoi p) :
    mainLoop src pos = ([], ExitKind.normal) := by
  have hpv : parse_value src pos = (PV.errEmpty p p, p) := by simp [parse_value, h]
  conv_lhs => unfold mainLoop
  split
  · rename_i v s2 e2 p2 heq; rw [hpv] at heq; simp at heq
  · rfl
  · rename_i s2 e2 p2 heq; rw [hpv] at heq; simp at heq
  · rename_i p2 heq; rw [hpv] at heq; simp at heq

lemma mainLoop_err {src : List Char} {pos s e : Nat} (h : nextToken src pos = Step.err s e) :
    mainLoop src pos = ([], ExitKind.diag s e) := by
  have hpv : parse_value src pos = (PV.errUnexpected s e, e) := by simp [parse_value, h]
  conv_lhs => unfold mainLoop
  split
  · rename_i v s2 e2 p2 heq; rw [hpv] at heq; simp at heq
  · rename_i s2 e2 p2 heq; rw [hpv] at heq; simp at heq
  · rename_i s2 e2 p2 heq
    rw [hpv] at heq
    simp only [Prod.mk.injEq, PV.errUnexpected.injEq] at heq
    obtain ⟨⟨rfl, rfl⟩, rfl⟩ := heq
    rfl
  · rename_i p2 heq; rw [hpv] at heq; simp at heq

lemma mainLoop_pan {src : List Char} {pos : Nat} (h : nextToken src pos = Step.panicked) :
    mainLoop src pos = ([], ExitKind.panicked) := by
  have hpv : parse_value src pos = (PV.panicked, pos) := by simp [parse_value, h]
  conv_lhs => unfold mainLoop
  split
  · rename_i v s2 e2 p2 heq; rw [hpv] at heq; simp at heq
  · rename_i s2 e2 p2 heq; rw [hpv] at heq; simp at heq
  · rename_i s2 e2 p2 heq; rw [hpv] at heq; simp at heq
  · rfl

lemma mainLoop_cons {src : List Char} {pos : Nat} {t : Token} {s e : Nat}
    (h : nextToken src pos = Step.tok t s e) :
    mainLoop src pos = (toValue t :: (mainLoop src e).1, (mainLoop src e).2) := by
  have hpv : parse_value src pos = (PV.ok (toValue t) s e, e) := by simp [parse_value, h]
  conv_lhs => unfold mainLoop
  split
  · rename_i v s2 e2 p2 heq
    rw [hpv] at heq
    simp only [Prod.mk.injEq, PV.ok.injEq] at heq
    obtain ⟨⟨rfl, rfl, rfl⟩, rfl⟩ := heq
    rfl
  · rename_i s2 e2 p2 heq; rw [hpv] at heq; simp at heq
  · rename_i s2 e2 p2 heq; rw [hpv] at heq; simp at heq
  · rename_i p2 heq; rw [hpv] at heq; simp at heq

lemma mainLoop_eq_scan (src : List Char) :
    ∀ (k pos : Nat), src.length - pos ≤ k →
      mainLoop src pos =
        ((scan src pos).1.map (fun x => toValue x.1), exitOf (scan src pos).2) := by
  intro k
  induction k with
  | zero =>
    intro pos hk
    have hnt := @nextToken_eoi_of_ge src pos (by omega)
    rw [mainLoop_empty hnt, scan_eoi hnt]
    rfl
  | succ k ih =>
    intro pos hk
    cases hnt : nextToken src pos with
    | eoi p => rw [mainLoop_empty hnt, scan_eoi hnt]; rfl
    | err s e => rw [mainLoop_err hnt, scan_err hnt]; rfl
    | panicked => rw [mainLoop_pan hnt, scan_pan hnt]; rfl
    | tok t s e =>
      have hb := nextToken_tok_bounds hnt
      rw [mainLoop_cons hnt, scan_cons hnt, ih e (by omega)]
      simp

lemma scan_spans (src : List Char) :
    ∀ (k pos : Nat), src.length - pos ≤ k →
      (∀ x ∈ (scan src pos).1, pos ≤ x.2.1 ∧ x.2.1 < x.2.2 ∧ x.2.2 ≤ src.length) ∧
      (∀ s e, (scan src pos).2 = Outcome.lexError s e →
        pos ≤ s ∧ s < e ∧ e ≤ src.length) := by
  intro k
  induction k with
  | zero =>
    intro pos hk
    have hnt := @nextToken_eoi_of_ge src pos (by omega)
    rw [scan_eoi hnt]
    constructor
    · intro x hx; simp at hx
    · intro s e h; simp at h
  | succ k ih =>
    intro pos hk
    cases hnt : nextToken src pos with
    | eoi p =>
      rw [scan_eoi hnt]
      constructor
      · intro x hx; simp at hx
      · intro s e h; simp at h
    | err s e =>
      rw [scan_err hnt]
      obtain ⟨hs, he, hp, hlt, _, _⟩ := nextToken_err_spec hnt
      constructor
      · intro x hx; simp at hx
      · intro s2 e2 h
        simp only [Outcome.lexError.injEq] at h
        obtain ⟨rfl, rfl⟩ := h
        omega
    | panicked =>
      rw [scan_pan hnt]
      constructor
      · intro x hx; simp at hx
      · intro s e h; simp at h
    | tok t s e =>
      have hb := nextToken_tok_bounds hnt
      rw [scan_cons hnt]
      have iha := ih e (by omega)
      constructor
      · intro x hx
        rcases List.mem_cons.mp hx with rfl | hx2
        · exact ⟨hb.1, hb.2.1, hb.2.2⟩
        · have := iha.1 x hx2
          omega
      · intro s2 e2 h
        have := iha.2 s2 e2 h
        omega

lemma scan_tokens_before_error (src : List Char) :
    ∀ (k pos : Nat), src.length - pos ≤ k →
      ∀ s e, (scan src pos).2 = Outcome.lexError s e →
        ∀ x ∈ (scan src pos).1, x.2.2 ≤ s := by
  intro k
  induction k with
  | zero =>
    intro pos hk s e hsc x hx
    have hnt := @nextToken_eoi_of_ge src pos (by omega)
    rw [scan_eoi hnt] at hx
    simp at hx
  | succ k ih =>
    intro pos hk s e hsc x hx
    cases hnt : nextToken src pos with
    | eoi p => rw [scan_eoi hnt] at hx; simp at hx
    | err s2 e2 => rw [scan_err hnt] at hx; simp at hx
    | panicked => rw [scan_pan hnt] at hx; simp at hx
    | tok t s2 e2 =>
      have hb := nextToken_tok_bounds hnt
      rw [scan_cons hnt] at hx hsc
      rcases List.mem_cons.mp hx with rfl | hx2
      · have herr := (scan_spans src (src.length - e2) e2 le_rfl).2 s e hsc
        simp only []
        omega
      · exact ih e2 (by omega) s e hsc x hx2

/-- Well-formed unsigned decimal literal per the spec's integer shape:
`0`, or a nonzero digit followed by digits (no leading zero otherwise). -/
def wfUInt : List Char → Bool
  | [] => false
  | [c] => c.isDigit
  | c :: d :: rest2 => c.isDigit && !(c = '0') && (d :: rest2).all Char.isDigit

/-- Well-formed integer literal: optional leading minus, then `wfUInt`. -/
def wfIntLit : List Char → Bool
  | [] => false
  | c :: rest => if c = '-' then wfUInt rest else wfUInt (c :: rest)

/-- The exact mathematical value of an integer literal. -/
def litVal : List Char → Int
  | [] => 0
  | c :: rest =>
    if c = '-' then -(natOfDigits rest : Int) else (natOfDigits (c :: rest) : Int)

lemma digit_ne {c x : Char} (h : c.isDigit = true) (hx : x.isDigit = false) : c ≠ x := by
  intro he
  subst he
  rw [h] at hx
  exact Bool.noConfusion hx

lemma isWs_false_of_head {c : Char} (hd : c = '-' ∨ c.isDigit = true) : isWs c = false := by
  have h1 : ¬(c = ' ') := by
    rcases hd with rfl | hdig
    · decide
    · exact digit_ne hdig (by decide)
  have h2 : ¬(c = '\t') := by
    rcases hd with rfl | hdig
    · decide
    · exact digit_ne hdig (by decide)
  have h3 : ¬(c = '\r') := by
    rcases hd with rfl | hdig
    · decide
    · exact digit_ne hdig (by decide)
  have h4 : ¬(c = ffeed) := by
    rcases hd with rfl | hdig
    · decide
    · exact digit_ne hdig (by decide)
  simp [isWs, h1, h2, h3, h4]

lemma digitRun_all {l : List Char} (h : l.all Char.isDigit = true) :
    digitRun l = l.length := by
  induction l with
  | nil => rfl
  | cons c rest ih =>
    simp only [List.all_cons, Bool.and_eq_true] at h
    simp [digitRun, h.1, ih h.2]

lemma wfUInt_first_digit {c : Char} {rest : List Char}
    (h : wfUInt (c :: rest) = true) : c.isDigit = true := by
  cases rest with
  | nil => exact h
  | cons d r =>
    simp only [wfUInt, Bool.and_eq_true] at h
    exact h.1.1

lemma wfUInt_all_digits {l : List Char} (h : wfUInt l = true) :
    l.all Char.isDigit = true ∧ l ≠ [] := by
  match l with
  | [] => simp [wfUInt] at h
  | [c] => simpa [wfUInt] using h
  | c :: d :: rest2 =>
    simp only [wfUInt, Bool.and_eq_true] at h
    refine ⟨?_, by simp⟩
    simp only [List.all_cons, Bool.and_eq_true]
    have h2 := h.2
    simp only [List.all_cons, Bool.and_eq_true] at h2
    exact ⟨h.1.1, h2⟩

lemma wfUInt_matchIntShape {l : List Char} (h : wfUInt l = true) :
    matchIntShape l = some l.length := by
  match l with
  | [] => simp [wfUInt] at h
  | [c] =>
    simp only [wfUInt] at h
    simp only [matchIntShape, h]
    split_ifs <;> simp [digitRun]
  | c :: d :: rest2 =>
    simp only [wfUInt, Bool.and_eq_true] at h
    have hc0 : ¬(c = '0') := by
      intro he
      rw [he] at h
      simp at h
    simp only [matchIntShape, if_neg hc0, h.1.1, if_true]
    rw [digitRun_all h.2]
    simp

lemma wfIntLit_head {c : Char} {rest : List Char} (h : wfIntLit (c :: rest) = true) :
    c = '-' ∨ c.isDigit = true := by
  simp only [wfIntLit] at h
  by_cases hc : c = '-'
  · exact Or.inl hc
  · rw [if_neg hc] at h
    exact Or.inr (wfUInt_first_digit h)

lemma matchInt_of_wf {l : List Char} (hwf : wfIntLit l = true) :
    matchInt l = some l.length := by
  match l with
  | [] => simp [wfIntLit] at hwf
  | c :: rest =>
    simp only [wfIntLit] at hwf
    by_cases hc : c = '-'
    · subst hc
      rw [if_pos rfl] at hwf
      simp [matchInt, wfUInt_matchIntShape hwf]
    · rw [if_neg hc] at hwf
      simp [matchInt, hc, wfUInt_matchIntShape hwf]

lemma matchFloat_full {l : List Char} (hi : matchInt l = some l.length) :
    matchFloat l = some l.length := by
  simp [matchFloat, hi, List.drop_length, matchFrac, matchExp]

lemma parseI64_of_wf {l : List Char} (hwf : wfIntLit l = true)
    (hlo : i64Min ≤ litVal l) (hhi : litVal l ≤ i64Max) :
    parseI64 l = some (litVal l) := by
  match l with
  | [] => simp [wfIntLit] at hwf
  | c :: rest =>
    simp only [wfIntLit] at hwf
    by_cases hc : c = '-'
    · subst hc
      rw [if_pos rfl] at hwf
      obtain ⟨hall, hne⟩ := wfUInt_all_digits hwf
      have hdv : digitsVal rest = some (natOfDigits rest) := by
        cases rest with
        | nil => exact absurd rfl hne
        | cons d r => simp [digitsVal, hall]
      have hlv : litVal ('-' :: rest) = -(natOfDigits rest : Int) := by simp [litVal]
      rw [hlv] at hlo
      rw [hlv]
      simp [parseI64, hdv, hlo]
    · rw [if_neg hc] at hwf
      obtain ⟨hall, _⟩ := wfUInt_all_digits hwf
      have hdv : digitsVal (c :: rest) = some (natOfDigits (c :: rest)) := by
        simp [digitsVal, hall]
      have hlv : litVal (c :: rest) = (natOfDigits (c :: rest) : Int) := by
        simp [litVal, hc]
      rw [hlv] at hhi
      rw [hlv]
      simp [parseI64, hc, hdv, hhi]

lemma selectPattern_int_of_head {c : Char} {rest : List Char} {n : Nat}
    (hd : c = '-' ∨ c.isDigit = true)
    (hi : matchInt (c :: rest) = some n) (hf : matchFloat (c :: rest) = some n) :
    selectPattern (c :: rest) = some (TokKind.int, n) := by
  have hcne : c ≠ dquote ∧ c ≠ squote ∧ c ≠ btick ∧ c ≠ '\n' := by
    rcases hd with rfl | hdig
    · exact ⟨by decide, by decide, by decide, by decide⟩
    · exact ⟨digit_ne hdig (by decide), digit_ne hdig (by decide),
        digit_ne hdig (by decide), digit_ne hdig (by decide)⟩
  have hs : matchString (c :: rest) = none := by simp [matchString, hcne.1]
  have hq : matchSingle (c :: rest) = none := by
    simp [matchSingle, matchQuoted, hcne.2.1]
  have hb : matchBare (c :: rest) = none := by
    simp [matchBare, matchQuoted, hcne.2.2.1]
  have hn : matchNewline (c :: rest) = none := by simp [matchNewline, hcne.2.2.2]
  simp [selectPattern, hs, hq, hb, hn, hi, hf, pick, prio]

/-- C1 (amended): for every input consisting solely of a well-formed
integer literal (optional leading minus, no leading zero unless the value
is exactly 0) whose value fits in the signed 64-bit range, the tokenizer
yields exactly one Int token whose payload equals the exact parsed integer
value of that literal, and then signals end-of-input.  The range
restriction is the amendment: outside it the `unwrap` in the `Token::Int`
callback panics instead of producing the token. -/
theorem c1_amended_int_literal (l : List Char) (hwf : wfIntLit l = true)
    (hlo : i64Min ≤ litVal l) (hhi : litVal l ≤ i64Max) :
    scan l 0 = ([(Token.Int (litVal l), 0, l.length)], Outcome.eoi) := by
  match l with
  | [] => simp [wfIntLit] at hwf
  | c :: rest =>
    have hd := wfIntLit_head hwf
    have hws : wsRun (c :: rest) = 0 := by simp [wsRun, isWs_false_of_head hd]
    have hskip : skipWs (c :: rest) 0 = 0 := by simp [skipWs, hws]
    have hi := matchInt_of_wf hwf
    have hf := matchFloat_full hi
    have hsel := selectPattern_int_of_head hd hi hf
    have hp64 := parseI64_of_wf hwf hlo hhi
    have hmk : mkToken TokKind.int ((c :: rest).take (c :: rest).length) =
        some (Token.Int (litVal (c :: rest))) := by
      rw [List.take_length]
      simp [mkToken, hp64]
    have hnt : nextToken (c :: rest) 0 =
        Step.tok (Token.Int (litVal (c :: rest))) 0 (0 + (c :: rest).length) := by
      simp only [nextToken, hskip, List.drop_zero, hsel, hmk]
    rw [scan_cons hnt, scan_eoi (nextToken_eoi_of_ge (by omega))]
    simp

/-- Witness for the amended C1 theorem at the concrete literal -7. -/
theorem c1_amended_int_literal_witness :
    scan ['-', '7'] 0 = ([(Token.Int (litVal ['-', '7']), 0, 2)], Outcome.eoi) :=
  c1_amended_int_literal ['-', '7'] (by decide) (by decide) (by decide)

/-- The digit string of 9223372036854775808 = 2^63, one past the largest
`i64`, still a well-formed integer literal. -/
def bigLit : List Char :=
  ['9', '2', '2', '3', '3', '7', '2', '0', '3', '6', '8', '5', '4', '7', '7', '5', '8', '0', '8']

/-- C1 counterexample: on the well-formed integer literal
9223372036854775808, whose value exceeds the i64 range, the `unwrap` of
`slice.parse::<i64>()` in the Int callback panics, so the tokenizer yields
no Int token and never signals end-of-input — the scan ends in a panic. -/
theorem c1_overflow_counterexample :
    wfIntLit bigLit = true ∧ i64Max < litVal bigLit ∧
      scan bigLit 0 = ([], Outcome.panicked) ∧
      scan bigLit 0 ≠ ([(Token.Int (litVal bigLit), 0, bigLit.length)], Outcome.eoi) := by
  have hnt : nextToken bigLit 0 = Step.panicked := by decide
  have hsc := scan_pan hnt
  refine ⟨by decide, by decide, hsc, ?_⟩
  rw [hsc]
  simp

/-- C9: re-running the scan over the same unmodified source yields an
identical token-or-error sequence: `main` builds a fresh lexer over the
same immutable buffer each time, and the result is a function of the
source text alone, with no hidden mutable state carried between runs. -/
theorem c9_scan_deterministic (src : List Char) :
    (scanTwice src).1 = (scanTwice src).2 := rfl

/-- C8: at every step of the scan, the byte span reported for a token or
for a diagnostic is a valid offset range within the original source
buffer: start ≤ end and end ≤ length.  (The buffer is never mutated during
the scan by construction of the model: `scan` threads only a cursor.) -/
theorem c8_spans_valid (src : List Char) :
    (∀ x ∈ (scan src 0).1, x.2.1 ≤ x.2.2 ∧ x.2.2 ≤ src.length) ∧
    (∀ s e, (scan src 0).2 = Outcome.lexError s e → s ≤ e ∧ e ≤ src.length) := by
  have h := scan_spans src (src.length - 0) 0 le_rfl
  constructor
  · intro x hx
    have hb := h.1 x hx
    omega
  · intro s e ho
    have hb := h.2 s e ho
    omega

/-- Witness for C8 at the concrete source `1`: the single Int token's span
(0, 1) is valid for the one-character buffer. -/
theorem c8_spans_valid_witness :
    (0 : Nat) ≤ 1 ∧ 1 ≤ (['1'] : List Char).length := by
  have hsc : scan ['1'] 0 = ([(Token.Int 1, 0, 1)], Outcome.eoi) := by
    rw [scan_cons (show nextToken ['1'] 0 = Step.tok (Token.Int 1) 0 1 by decide)]
    rw [scan_eoi (show nextToken ['1'] 1 = Step.eoi 1 by decide)]
  exact (c8_spans_valid ['1']).1 (Token.Int 1, 0, 1)
    (by rw [hsc]; exact List.mem_singleton_self _)

/-- True when the lexer at `pos` has no more input: everything remaining
in the buffer is skip-whitespace, so `lexer.next()` returns `None`. -/
def noMoreInput (src : List Char) (pos : Nat) : Bool :=
  (src.drop pos).all isWs

/-- True when input is present at the scan position (after whitespace
skipping) but no token pattern matches there. -/
def unrecognizedAt (src : List Char) (pos : Nat) : Bool :=
  !(src.drop (skipWs src pos)).isEmpty &&
    (selectPattern (src.drop (skipWs src pos))).isNone

lemma all_isWs_iff_drop_wsRun (l : List Char) :
    l.all isWs = true ↔ l.drop (wsRun l) = [] := by
  induction l with
  | nil => simp [wsRun]
  | cons c rest ih =>
    by_cases hc : isWs c
    · simp only [List.all_cons, hc, Bool.true_and, wsRun, if_pos hc,
        List.drop_succ_cons]
      exact ih
    · simp only [List.all_cons, wsRun, if_neg hc, List.drop_zero]
      simp [hc]

lemma drop_skipWs (src : List Char) (pos : Nat) :
    src.drop (skipWs src pos) = (src.drop pos).drop (wsRun (src.drop pos)) := by
  rw [List.drop_drop, skipWs, Nat.add_comm]

lemma nextToken_eoi_spec {src : List Char} {pos p : Nat}
    (h : nextToken src pos = Step.eoi p) :
    src.drop (skipWs src pos) = [] ∧ p = skipWs src pos := by
  unfold nextToken at h
  split at h
  · rename_i hd
    cases h
    exact ⟨hd, rfl⟩
  · split at h
    · exact absurd h (by simp)
    · split at h
      · exact absurd h (by simp)
      · exact absurd h (by simp)

lemma nextToken_eoi_iff {src : List Char} {pos : Nat} :
    (∃ p, nextToken src pos = Step.eoi p) ↔ noMoreInput src pos = true := by
  constructor
  · rintro ⟨p, h⟩
    obtain ⟨hd, _⟩ := nextToken_eoi_spec h
    rw [noMoreInput, all_isWs_iff_drop_wsRun, ← drop_skipWs]
    exact hd
  · intro h
    rw [noMoreInput, all_isWs_iff_drop_wsRun, ← drop_skipWs] at h
    exact ⟨skipWs src pos, by simp [nextToken, h]⟩

lemma unrecognizedAt_iff_err {src : List Char} {pos : Nat} :
    unrecognizedAt src pos = true ↔ ∃ s e, nextToken src pos = Step.err s e := by
  constructor
  · intro hu
    rw [unrecognizedAt, Bool.and_eq_true] at hu
    obtain ⟨hne, hsel⟩ := hu
    rw [Option.isNone_iff_eq_none] at hsel
    cases hd : src.drop (skipWs src pos) with
    | nil => rw [hd] at hne; simp at hne
    | cons c rest =>
      rw [hd] at hsel
      exact ⟨skipWs src pos, skipWs src pos + 1, by simp [nextToken, hd, hsel]⟩
  · rintro ⟨s, e, h⟩
    obtain ⟨hs, he, hp, hlt, hsel, hne⟩ := nextToken_err_spec h
    subst hs
    rw [unrecognizedAt, Bool.and_eq_true]
    refine ⟨?_, by simp [hsel]⟩
    cases hd : src.drop (skipWs src pos) with
    | nil => exact absurd hd hne
    | cons c rest => simp [hd]

/-- C2: end-of-input is by construction a condition distinct from a
lexical error.  `parse_value` returns the EMPTY error exactly when the
lexer has no more input, returns the other (unexpected-token) error
exactly when input is present but unrecognized, and the driver loop exits
normally — printing no diagnostic — exactly in the end-of-input case. -/
theorem c2_eoi_distinct_from_error (src : List Char) (pos : Nat) :
    ((∃ s e, (parse_value src pos).1 = PV.errEmpty s e) ↔
        noMoreInput src pos = true) ∧
    ((∃ s e, (parse_value src pos).1 = PV.errUnexpected s e) ↔
        unrecognizedAt src pos = true) ∧
    ((mainLoop src pos).2 = ExitKind.normal ↔ (scan src pos).2 = Outcome.eoi) := by
  have h3 : (mainLoop src pos).2 = ExitKind.normal ↔ (scan src pos).2 = Outcome.eoi := by
    rw [mainLoop_eq_scan src (src.length - pos) pos le_rfl]
    cases (scan src pos).2 <;> simp [exitOf]
  refine ⟨?_, ?_, h3⟩
  · cases hnt : nextToken src pos with
    | eoi p =>
      refine iff_of_true ⟨p, p, by simp [parse_value, hnt]⟩
        (nextToken_eoi_iff.mp ⟨p, hnt⟩)
    | err s e =>
      refine iff_of_false ?_ ?_
      · rintro ⟨s2, e2, hx⟩
        simp [parse_value, hnt] at hx
      · intro hnm
        obtain ⟨p, h'⟩ := nextToken_eoi_iff.mpr hnm
        rw [hnt] at h'
        exact Step.noConfusion h'
    | tok t s e =>
      refine iff_of_false ?_ ?_
      · rintro ⟨s2, e2, hx⟩
        simp [parse_value, hnt] at hx
      · intro hnm
        obtain ⟨p, h'⟩ := nextToken_eoi_iff.mpr hnm
        rw [hnt] at h'
        exact Step.noConfusion h'
    | panicked =>
      refine iff_of_false ?_ ?_
      · rintro ⟨s2, e2, hx⟩
        simp [parse_value, hnt] at hx
      · intro hnm
        obtain ⟨p, h'⟩ := nextToken_eoi_iff.mpr hnm
        rw [hnt] at h'
        exact Step.noConfusion h'
  · cases hnt : nextToken src pos with
    | eoi p =>
      refine iff_of_false ?_ ?_
      · rintro ⟨s2, e2, hx⟩
        simp [parse_value, hnt] at hx
      · intro hu
        obtain ⟨s, e, h'⟩ := unrecognizedAt_iff_err.mp hu
        rw [hnt] at h'
        exact Step.noConfusion h'
    | err s e =>
      refine iff_of_true ⟨s, e, by simp [parse_value, hnt]⟩
        (unrecognizedAt_iff_err.mpr ⟨s, e, hnt⟩)
    | tok t s e =>
      refine iff_of_false ?_ ?_
      · rintro ⟨s2, e2, hx⟩
        simp [parse_value, hnt] at hx
      · intro hu
        obtain ⟨s2, e2, h'⟩ := unrecognizedAt_iff_err.mp hu
        rw [hnt] at h'
        exact Step.noConfusion h'
    | panicked =>
      refine iff_of_false ?_ ?_
      · rintro ⟨s2, e2, hx⟩
        simp [parse_value, hnt] at hx
      · intro hu
        obtain ⟨s2, e2, h'⟩ := unrecognizedAt_iff_err.mp hu
        rw [hnt] at h'
        exact Step.noConfusion h'

/-- Witness for C2: on the empty source the lexer has no more input and
`parse_value` indeed returns the EMPTY error. -/
theorem c2_eoi_distinct_from_error_witness :
    ∃ s e, (parse_value [] 0).1 = PV.errEmpty s e :=
  (c2_eoi_distinct_from_error [] 0).1.mpr (by decide)

lemma scan_err_source (src : List Char) :
    ∀ (k pos s e : Nat), src.length - pos ≤ k →
      (scan src pos).2 = Outcome.lexError s e →
      ∃ q, nextToken src q = Step.err s e := by
  intro k
  induction k with
  | zero =>
    intro pos s e hk hsc
    have hnt := @nextToken_eoi_of_ge src pos (by omega)
    rw [scan_eoi hnt] at hsc
    exact absurd hsc (by simp)
  | succ k ih =>
    intro pos s e hk hsc
    cases hnt : nextToken src pos with
    | eoi p =>
      rw [scan_eoi hnt] at hsc
      exact absurd hsc (by simp)
    | err s2 e2 =>
      rw [scan_err hnt] at hsc
      simp only [Outcome.lexError.injEq] at hsc
      obtain ⟨rfl, rfl⟩ := hsc
      exact ⟨pos, hnt⟩
    | panicked =>
      rw [scan_pan hnt] at hsc
      exact absurd hsc (by simp)
    | tok t s2 e2 =>
      have hb := nextToken_tok_bounds hnt
      rw [scan_cons hnt] at hsc
      exact ih e2 s e (by omega) hsc

/-- C3: when an input contains an unmatchable position that the scan
reaches, scanning halts exactly there: the failing offset carries no
token-pattern match though input is present, every emitted token ends at
or before that offset and none follows the failure, and the driver prints
exactly one diagnostic whose span starts at that exact offset. -/
theorem c3_error_halts_at_offset (src : List Char) (toks : List (Token × Nat × Nat))
    (s e : Nat) (hsc : scan src 0 = (toks, Outcome.lexError s e)) :
    selectPattern (src.drop s) = none ∧ src.drop s ≠ [] ∧ s < src.length ∧
      e = s + 1 ∧ (∀ x ∈ toks, x.2.2 ≤ s) ∧
      mainLoop src 0 = (toks.map (fun x => toValue x.1), ExitKind.diag s e) := by
  have h2 : (scan src 0).2 = Outcome.lexError s e := by rw [hsc]
  obtain ⟨q, hq⟩ := scan_err_source src (src.length - 0) 0 s e le_rfl h2
  obtain ⟨hs, he, hp, hlt, hsel, hne⟩ := nextToken_err_spec hq
  refine ⟨hsel, hne, hlt, he, ?_, ?_⟩
  · intro x hx
    have := scan_tokens_before_error src (src.length - 0) 0 le_rfl s e h2 x
      (by rw [hsc]; exact hx)
    exact this
  · rw [mainLoop_eq_scan src (src.length - 0) 0 le_rfl, hsc]
    simp [exitOf]

/-- Witness for C3 at the concrete source `1 @`: the scan stops at offset
2, where `@` matches no pattern, after the single Int token. -/
theorem c3_error_halts_at_offset_witness :
    selectPattern ((['1', ' ', '@'] : List Char).drop 2) = none ∧
      (['1', ' ', '@'] : List Char).drop 2 ≠ [] ∧
      2 < (['1', ' ', '@'] : List Char).length ∧ 3 = 2 + 1 ∧
      (∀ x ∈ [((Token.Int 1 : Token), 0, 1)], x.2.2 ≤ 2) ∧
      mainLoop ['1', ' ', '@'] 0 =
        ([((Token.Int 1 : Token), 0, 1)].map (fun x => toValue x.1), ExitKind.diag 2 3) := by
  have hsc : scan ['1', ' ', '@'] 0 = ([(Token.Int 1, 0, 1)], Outcome.lexError 2 3) := by
    rw [scan_cons (show nextToken ['1', ' ', '@'] 0 = Step.tok (Token.Int 1) 0 1 by decide)]
    rw [scan_err (show nextToken ['1', ' ', '@'] 1 = Step.err 2 3 by decide)]
  exact c3_error_halts_at_offset ['1', ' ', '@'] [(Token.Int 1, 0, 1)] 2 3 hsc

lemma matchInt_head {l : List Char} {n : Nat} (h : matchInt l = some n) :
    ∃ c rest, l = c :: rest ∧ (c = '-' ∨ c.isDigit = true) := by
  cases l with
  | nil => simp [matchInt] at h
  | cons c rest =>
    refine ⟨c, rest, rfl, ?_⟩
    simp only [matchInt] at h
    split_ifs at h with hc
    · exact Or.inl hc
    · right
      simp only [matchIntShape] at h
      split_ifs at h with h0 hd
      · rw [h0]; decide
      · exact hd

lemma matchFloat_eq_matchInt {l : List Char} {n : Nat} (hi : matchInt l = some n)
    (hfr : matchFrac (l.drop n) = 0) (hex : matchExp (l.drop n) = 0) :
    matchFloat l = some n := by
  simp [matchFloat, hi, hfr, hex]

lemma scan_of_314 :
    scan ['3', '.', '1', '4'] 0 =
      ([(Token.Float (3.14 : ℚ), 0, 4)], Outcome.eoi) := by
  have hnt : nextToken ['3', '.', '1', '4'] 0 =
      Step.tok (Token.Float (3.14 : ℚ)) 0 4 := by
    have hsel : selectPattern ['3', '.', '1', '4'] = some (TokKind.float, 4) := by
      decide
    have hpf : parseFloatQ ['3', '.', '1', '4'] = some (3.14 : ℚ) := by
      simp +decide [parseFloatQ, stripSign, parseFrac, parseExpTail, digitRun,
        natOfDigits]
      norm_num
    have hskip : skipWs ['3', '.', '1', '4'] 0 = 0 := by decide
    simp only [nextToken, hskip, List.drop_zero, hsel]
    simp +decide [mkToken, hpf]
  rw [scan_cons hnt]
  rw [scan_eoi (show nextToken ['3', '.', '1', '4'] 4 = Step.eoi 4 by decide)]

/-- C4: a lexeme of integer shape with no fractional part and no exponent
part classifies as an Int token, not a Float token — the tie at equal
match length goes to the higher-priority Int pattern; and the input 3.14
yields exactly one Float token whose value is exactly 3.14 (as an exact
rational; IEEE rounding is abstracted), then end-of-input. -/
theorem c4_int_beats_float (l : List Char) (n : Nat)
    (hi : matchInt l = some n) (hfr : matchFrac (l.drop n) = 0)
    (hex : matchExp (l.drop n) = 0) :
    selectPattern l = some (TokKind.int, n) ∧
      scan ['3', '.', '1', '4'] 0 =
        ([(Token.Float (3.14 : ℚ), 0, 4)], Outcome.eoi) := by
  constructor
  · obtain ⟨c, rest, rfl, hd⟩ := matchInt_head hi
    exact selectPattern_int_of_head hd hi (matchFloat_eq_matchInt hi hfr hex)
  · exact scan_of_314

/-- Witness for C4 at the one-character integer-shaped input 3. -/
theorem c4_int_beats_float_witness :
    selectPattern ['3'] = some (TokKind.int, 1) ∧
      scan ['3', '.', '1', '4'] 0 =
        ([(Token.Float (3.14 : ℚ), 0, 4)], Outcome.eoi) :=
  c4_int_beats_float ['3'] 1 (by decide) (by decide) (by decide)

lemma selectPattern_string {l : List Char} {n : Nat} (h : matchString l = some n) :
    selectPattern l = some (TokKind.string, n) := by
  cases l with
  | nil => simp [matchString] at h
  | cons c rest =>
    have hc : c = dquote := by
      by_contra hc
      simp [matchString, hc] at h
    subst hc
    have h1 : matchSingle (dquote :: rest) = none := by
      simp [matchSingle, matchQuoted, show ¬(dquote = squote) from by decide]
    have h2 : matchBare (dquote :: rest) = none := by
      simp [matchBare, matchQuoted, show ¬(dquote = btick) from by decide]
    have h3 : matchInt (dquote :: rest) = none := by
      simp [matchInt, matchIntShape, show ¬(dquote = '-') from by decide,
        show ¬(dquote = '0') from by decide,
        show dquote.isDigit = false from by decide]
    have h4 : matchFloat (dquote :: rest) = none := by simp [matchFloat, h3]
    have h5 : matchNewline (dquote :: rest) = none := by
      simp [matchNewline, show ¬(dquote = '\n') from by decide]
    simp [selectPattern, h, h1, h2, h3, h4, h5, pick]

lemma selectPattern_single {l : List Char} {n : Nat} (h : matchSingle l = some n) :
    selectPattern l = some (TokKind.singleQuoted, n) := by
  cases l with
  | nil => simp [matchSingle, matchQuoted] at h
  | cons c rest =>
    have hc : c = squote := by
      by_contra hc
      simp [matchSingle, matchQuoted, hc] at h
    subst hc
    have h0 : matchString (squote :: rest) = none := by
      simp [matchString, show ¬(squote = dquote) from by decide]
    have h2 : matchBare (squote :: rest) = none := by
      simp [matchBare, matchQuoted, show ¬(squote = btick) from by decide]
    have h3 : matchInt (squote :: rest) = none := by
      simp [matchInt, matchIntShape, show ¬(squote = '-') from by decide,
        show ¬(squote = '0') from by decide,
        show squote.isDigit = false from by decide]
    have h4 : matchFloat (squote :: rest) = none := by simp [matchFloat, h3]
    have h5 : matchNewline (squote :: rest) = none := by
      simp [matchNewline, show ¬(squote = '\n') from by decide]
    simp [selectPattern, h, h0, h2, h3, h4, h5, pick]

lemma selectPattern_bare {l : List Char} {n : Nat} (h : matchBare l = some n) :
    selectPattern l = some (TokKind.bareWord, n) := by
  cases l with
  | nil => simp [matchBare, matchQuoted] at h
  | cons c rest =>
    have hc : c = btick := by
      by_contra hc
      simp [matchBare, matchQuoted, hc] at h
    subst hc
    have h0 : matchString (btick :: rest) = none := by
      simp [matchString, show ¬(btick = dquote) from by decide]
    have h1 : matchSingle (btick :: rest) = none := by
      simp [matchSingle, matchQuoted, show ¬(btick = squote) from by decide]
    have h3 : matchInt (btick :: rest) = none := by
      simp [matchInt, matchIntShape, show ¬(btick = '-') from by decide,
        show ¬(btick = '0') from by decide,
        show btick.isDigit = false from by decide]
    have h4 : matchFloat (btick :: rest) = none := by simp [matchFloat, h3]
    have h5 : matchNewline (btick :: rest) = none := by
      simp [matchNewline, show ¬(btick = '\n') from by decide]
    simp [selectPattern, h, h0, h1, h3, h4, h5, pick]

/-- C5: wherever one of the quoted or backtick patterns matches, it wins
the classification (their priority 20 beats the numeric priorities), so a
numeral in double quotes, single quotes, or backticks lexes as one String,
SingleQuoted, or BareWord token respectively — never as Int or Float. -/
theorem c5_quoted_beats_numeric (l : List Char) (n : Nat) :
    (matchString l = some n → selectPattern l = some (TokKind.string, n)) ∧
    (matchSingle l = some n → selectPattern l = some (TokKind.singleQuoted, n)) ∧
    (matchBare l = some n → selectPattern l = some (TokKind.bareWord, n)) ∧
    scan [dquote, '4', '2', dquote] 0 =
      ([(Token.String [dquote, '4', '2', dquote], 0, 4)], Outcome.eoi) ∧
    scan [squote, '4', '2', squote] 0 =
      ([(Token.SingleQuoted [squote, '4', '2', squote], 0, 4)], Outcome.eoi) ∧
    scan [btick, '4', '2', btick] 0 =
      ([(Token.BareWord [btick, '4', '2', btick], 0, 4)], Outcome.eoi) := by
  refine ⟨selectPattern_string, selectPattern_single, selectPattern_bare, ?_, ?_, ?_⟩
  · rw [scan_cons (show nextToken [dquote, '4', '2', dquote] 0 =
      Step.tok (Token.String [dquote, '4', '2', dquote]) 0 4 by decide)]
    rw [scan_eoi (show nextToken [dquote, '4', '2', dquote] 4 = Step.eoi 4 by decide)]
  · rw [scan_cons (show nextToken [squote, '4', '2', squote] 0 =
      Step.tok (Token.SingleQuoted [squote, '4', '2', squote]) 0 4 by decide)]
    rw [scan_eoi (show nextToken [squote, '4', '2', squote] 4 = Step.eoi 4 by decide)]
  · rw [scan_cons (show nextToken [btick, '4', '2', btick] 0 =
      Step.tok (Token.BareWord [btick, '4', '2', btick]) 0 4 by decide)]
    rw [scan_eoi (show nextToken [btick, '4', '2', btick] 4 = Step.eoi 4 by decide)]

/-- Witness for C5: the double-quoted numeral `"42"` classifies as a
String match of length 4. -/
theorem c5_quoted_beats_numeric_witness :
    selectPattern [dquote, '4', '2', dquote] = some (TokKind.string, 4) :=
  (c5_quoted_beats_numeric [dquote, '4', '2', dquote] 4).1 (by decide)

/-- C6: String, SingleQuoted, and BareWord tokens carry exactly the
matched source slice, delimiters included and escape sequences preserved
verbatim: `"ab\"c"` yields one String token with that exact slice, `'hi'`
one SingleQuoted token, and a backtick-quoted `raw` one BareWord token,
each followed by end-of-input. -/
theorem c6_slices_verbatim :
    scan [dquote, 'a', 'b', bslash, dquote, 'c', dquote] 0 =
      ([(Token.String [dquote, 'a', 'b', bslash, dquote, 'c', dquote], 0, 7)],
        Outcome.eoi) ∧
    scan [squote, 'h', 'i', squote] 0 =
      ([(Token.SingleQuoted [squote, 'h', 'i', squote], 0, 4)], Outcome.eoi) ∧
    scan [btick, 'r', 'a', 'w', btick] 0 =
      ([(Token.BareWord [btick, 'r', 'a', 'w', btick], 0, 5)], Outcome.eoi) := by
  refine ⟨?_, ?_, ?_⟩
  · rw [scan_cons (show nextToken [dquote, 'a', 'b', bslash, dquote, 'c', dquote] 0 =
      Step.tok (Token.String [dquote, 'a', 'b', bslash, dquote, 'c', dquote]) 0 7
        by decide)]
    rw [scan_eoi (show nextToken [dquote, 'a', 'b', bslash, dquote, 'c', dquote] 7 =
      Step.eoi 7 by decide)]
  · rw [scan_cons (show nextToken [squote, 'h', 'i', squote] 0 =
      Step.tok (Token.SingleQuoted [squote, 'h', 'i', squote]) 0 4 by decide)]
    rw [scan_eoi (show nextToken [squote, 'h', 'i', squote] 4 = Step.eoi 4 by decide)]
  · rw [scan_cons (show nextToken [btick, 'r', 'a', 'w', btick] 0 =
      Step.tok (Token.BareWord [btick, 'r', 'a', 'w', btick]) 0 5 by decide)]
    rw [scan_eoi (show nextToken [btick, 'r', 'a', 'w', btick] 5 = Step.eoi 5 by decide)]

lemma wsRun_drop_wsRun (l : List Char) : wsRun (l.drop (wsRun l)) = 0 := by
  induction l with
  | nil => simp [wsRun]
  | cons c rest ih =>
    by_cases hc : isWs c
    · simp only [wsRun, if_pos hc, List.drop_succ_cons]
      exact ih
    · simp only [wsRun, if_neg hc, List.drop_zero]

lemma skipWs_idem (src : List Char) (pos : Nat) :
    skipWs src (pos + wsRun (src.drop pos)) = skipWs src pos := by
  have h : src.drop (pos + wsRun (src.drop pos)) =
      (src.drop pos).drop (wsRun (src.drop pos)) := by
    rw [List.drop_drop, Nat.add_comm]
  rw [skipWs, skipWs, h, wsRun_drop_wsRun]
  omega

lemma selectPattern_newline {rest : List Char} :
    selectPattern ('\n' :: rest) = some (TokKind.newline, 1) := by
  have h0 : matchString ('\n' :: rest) = none := by
    simp [matchString, show ¬(('\n' : Char) = dquote) from by decide]
  have h1 : matchSingle ('\n' :: rest) = none := by
    simp [matchSingle, matchQuoted, show ¬(('\n' : Char) = squote) from by decide]
  have h2 : matchBare ('\n' :: rest) = none := by
    simp [matchBare, matchQuoted, show ¬(('\n' : Char) = btick) from by decide]
  have h3 : matchInt ('\n' :: rest) = none := by
    simp [matchInt, matchIntShape, show ¬(('\n' : Char) = '-') from by decide,
      show ¬(('\n' : Char) = '0') from by decide,
      show ('\n' : Char).isDigit = false from by decide]
  have h4 : matchFloat ('\n' :: rest) = none := by simp [matchFloat, h3]
  have h5 : matchNewline ('\n' :: rest) = some 1 := by simp [matchNewline]
  simp [selectPattern, h0, h1, h2, h3, h4, h5, pick]

/-- C7: a run of skip-whitespace between tokens is transparent — pulling
the next token from the start of the run gives exactly the same result as
pulling from its end, so no token is emitted for the run — while a newline
at the scan position is emitted as its own Newline token rather than
skipped.  Concretely, `1 \t2` scans to the two Int tokens alone, and
`1\n2` to Int, Newline, Int. -/
theorem c7_ws_skipped_newline_token (src : List Char) (pos : Nat) :
    nextToken src pos = nextToken src (pos + wsRun (src.drop pos)) ∧
    ((src.drop (skipWs src pos)).head? = some '\n' →
      nextToken src pos =
        Step.tok (Token.Newline '\n') (skipWs src pos) (skipWs src pos + 1)) ∧
    scan ['1', ' ', '\t', '2'] 0 =
      ([(Token.Int 1, 0, 1), (Token.Int 2, 3, 4)], Outcome.eoi) ∧
    scan ['1', '\n', '2'] 0 =
      ([(Token.Int 1, 0, 1), (Token.Newline '\n', 1, 2), (Token.Int 2, 2, 3)],
        Outcome.eoi) := by
  refine ⟨?_, ?_, ?_, ?_⟩
  · have hs := skipWs_idem src pos
    simp only [nextToken, hs]
  · intro hh
    cases hd : src.drop (skipWs src pos) with
    | nil => rw [hd] at hh; simp at hh
    | cons c rest =>
      rw [hd] at hh
      simp only [List.head?_cons, Option.some.injEq] at hh
      subst hh
      have hsel := @selectPattern_newline rest
      simp [nextToken, hd, hsel, mkToken]
  · rw [scan_cons (show nextToken ['1', ' ', '\t', '2'] 0 =
      Step.tok (Token.Int 1) 0 1 by decide)]
    rw [scan_cons (show nextToken ['1', ' ', '\t', '2'] 1 =
      Step.tok (Token.Int 2) 3 4 by decide)]
    rw [scan_eoi (show nextToken ['1', ' ', '\t', '2'] 4 = Step.eoi 4 by decide)]
  · rw [scan_cons (show nextToken ['1', '\n', '2'] 0 =
      Step.tok (Token.Int 1) 0 1 by decide)]
    rw [scan_cons (show nextToken ['1', '\n', '2'] 1 =
      Step.tok (Token.Newline '\n') 1 2 by decide)]
    rw [scan_cons (show nextToken ['1', '\n', '2'] 2 =
      Step.tok (Token.Int 2) 2 3 by decide)]
    rw [scan_eoi (show nextToken ['1', '\n', '2'] 3 = Step.eoi 3 by decide)]

/-- Witness for C7: on the one-character source containing a newline, the
newline is emitted as its own token. -/
theorem c7_ws_skipped_newline_token_witness :
    nextToken ['\n'] 0 =
      Step.tok (Token.Newline '\n') (skipWs ['\n'] 0) (skipWs ['\n'] 0 + 1) :=
  (c7_ws_skipped_newline_token ['\n'] 0).2.1 (by decide)

/-- Shape of a fraction part as cut out by the Float regex: empty, or a
dot followed by a nonempty digit run. -/
def FracShape (fr : List Char) : Prop :=
  fr = [] ∨ ∃ fds, fds ≠ [] ∧ fds.all Char.isDigit = true ∧ fr = '.' :: fds

/-- Shape of an exponent part as cut out by the Float regex: empty, or
`e`/`E`, an optional sign, and a nonempty digit run. -/
def ExpShape (ex : List Char) : Prop :=
  ex = [] ∨ ∃ ec sg eds, (ec = 'e' ∨ ec = 'E') ∧
    (sg = [] ∨ sg = ['+'] ∨ sg = ['-']) ∧ eds ≠ [] ∧
    eds.all Char.isDigit = true ∧ ex = ec :: (sg ++ eds)

lemma digitRun_take_all (l : List Char) :
    (l.take (digitRun l)).all Char.isDigit = true := by
  induction l with
  | nil => simp [digitRun]
  | cons c rest ih =>
    by_cases hc : c.isDigit
    · simp only [digitRun, if_pos hc, List.take_succ_cons, List.all_cons,
        Bool.and_eq_true]
      exact ⟨hc, ih⟩
    · simp [digitRun, hc]

lemma digitRun_append_stop {ds rest : List Char} (hds : ds.all Char.isDigit = true)
    (hrest : rest = [] ∨ ∃ r rr, rest = r :: rr ∧ r.isDigit = false) :
    digitRun (ds ++ rest) = ds.length := by
  induction ds with
  | nil =>
    simp only [List.nil_append, List.length_nil]
    rcases hrest with rfl | ⟨r, rr, rfl, hr⟩
    · simp [digitRun]
    · simp [digitRun, hr]
  | cons c cs ih =>
    simp only [List.all_cons, Bool.and_eq_true] at hds
    simp [digitRun, hds.1, ih hds.2]

lemma take_digitRun_ne_nil {rr : List Char} (hz : digitRun rr ≠ 0) :
    rr.take (digitRun rr) ≠ [] := by
  intro he
  have hlen : (rr.take (digitRun rr)).length = digitRun rr := by
    rw [List.length_take]
    exact Nat.min_eq_left (digitRun_le rr)
  rw [he] at hlen
  exact hz hlen.symm

lemma matchIntShape_take {l : List Char} {m : Nat} (h : matchIntShape l = some m) :
    l.take m ≠ [] ∧ (l.take m).all Char.isDigit = true := by
  cases l with
  | nil => simp [matchIntShape] at h
  | cons c rest =>
    simp only [matchIntShape] at h
    split_ifs at h with h0 hd
    · simp only [Option.some.injEq] at h
      subst h
      subst h0
      exact ⟨by simp, (by decide : (['0'] : List Char).all Char.isDigit = true)⟩
    · simp only [Option.some.injEq] at h
      subst h
      refine ⟨by simp, ?_⟩
      simp only [List.take_succ_cons, List.all_cons, Bool.and_eq_true]
      exact ⟨hd, digitRun_take_all rest⟩

lemma matchInt_decomp {l : List Char} {m : Nat} (h : matchInt l = some m) :
    ∃ (neg : Bool) (ds : List Char),
      l.take m = (if neg then ['-'] else []) ++ ds ∧
      ds ≠ [] ∧ ds.all Char.isDigit = true := by
  cases l with
  | nil => simp [matchInt] at h
  | cons c rest =>
    simp only [matchInt] at h
    split_ifs at h with hc
    · obtain ⟨mi, hmi, hm⟩ := Option.map_eq_some'.mp h
      replace hm : mi + 1 = m := hm
      obtain ⟨hne2, hall2⟩ := matchIntShape_take hmi
      refine ⟨true, rest.take mi, ?_, hne2, hall2⟩
      subst hc
      rw [← hm]
      simp [List.take_succ_cons]
    · obtain ⟨hne2, hall2⟩ := matchIntShape_take h
      exact ⟨false, (c :: rest).take m, by simp, hne2, hall2⟩

lemma matchFrac_decomp (lm : List Char) : FracShape (lm.take (matchFrac lm)) := by
  cases lm with
  | nil => exact Or.inl rfl
  | cons c rr =>
    simp only [matchFrac]
    split_ifs with hc hz
    · exact Or.inl rfl
    · subst hc
      refine Or.inr ⟨rr.take (digitRun rr), take_digitRun_ne_nil hz,
        digitRun_take_all rr, ?_⟩
      simp [List.take_succ_cons]
    · exact Or.inl rfl

lemma matchExp_decomp (lm : List Char) : ExpShape (lm.take (matchExp lm)) := by
  match lm with
  | [] => exact Or.inl rfl
  | [c] => exact Or.inl rfl
  | c :: d :: rr =>
    simp only [matchExp]
    split_ifs with hce hd hz1 hz2
    · exact Or.inl rfl
    · simp only [Bool.or_eq_true, decide_eq_true_eq] at hce hd
      refine Or.inr ⟨c, [d], rr.take (digitRun rr), hce, ?_,
        take_digitRun_ne_nil hz1, digitRun_take_all rr, ?_⟩
      · rcases hd with rfl | rfl
        · exact Or.inr (Or.inl rfl)
        · exact Or.inr (Or.inr rfl)
      · simp [List.take_succ_cons]
    · exact Or.inl rfl
    · simp only [Bool.or_eq_true, decide_eq_true_eq] at hce
      refine Or.inr ⟨c, [], (d :: rr).take (digitRun (d :: rr)), hce,
        Or.inl rfl, take_digitRun_ne_nil hz2, digitRun_take_all (d :: rr), ?_⟩
      simp [List.take_succ_cons]
    · exact Or.inl rfl

lemma matchFloat_decomp {l : List Char} {n : Nat} (h : matchFloat l = some n) :
    ∃ (neg : Bool) (ds fr ex : List Char),
      l.take n = (if neg then ['-'] else []) ++ (ds ++ (fr ++ ex)) ∧
      ds ≠ [] ∧ ds.all Char.isDigit = true ∧ FracShape fr ∧ ExpShape ex := by
  simp only [matchFloat] at h
  obtain ⟨m, hm, hmn⟩ := Option.map_eq_some'.mp h
  replace hmn : m + matchFrac (l.drop m) +
      matchExp (l.drop (m + matchFrac (l.drop m))) = n := hmn
  obtain ⟨neg, ds, hds_eq, hds_ne, hds_all⟩ := matchInt_decomp hm
  refine ⟨neg, ds, (l.drop m).take (matchFrac (l.drop m)),
    (l.drop (m + matchFrac (l.drop m))).take
      (matchExp (l.drop (m + matchFrac (l.drop m)))), ?_, hds_ne, hds_all,
    matchFrac_decomp (l.drop m), matchExp_decomp _⟩
  rw [← hmn]
  rw [List.take_add l (m + matchFrac (l.drop m))
    (matchExp (l.drop (m + matchFrac (l.drop m))))]
  rw [List.take_add l m (matchFrac (l.drop m))]
  rw [hds_eq]
  simp [List.append_assoc]

lemma exp_stop {ex : List Char} (hex : ExpShape ex) :
    ex = [] ∨ ∃ r rr, ex = r :: rr ∧ r.isDigit = false := by
  rcases hex with rfl | ⟨ec, sg, eds, hec, _, _, _, rfl⟩
  · exact Or.inl rfl
  · refine Or.inr ⟨ec, sg ++ eds, rfl, ?_⟩
    rcases hec with rfl | rfl <;> decide

lemma stop_head {fr ex : List Char} (hfr : FracShape fr) (hex : ExpShape ex) :
    fr ++ ex = [] ∨ ∃ r rr, fr ++ ex = r :: rr ∧ r.isDigit = false := by
  rcases hfr with rfl | ⟨fds, _, _, rfl⟩
  · simpa using exp_stop hex
  · exact Or.inr ⟨'.', fds ++ ex, rfl, by decide⟩

lemma parseExpTail_shape {ex : List Char} (hex : ExpShape ex) :
    (parseExpTail ex).isSome = true := by
  rcases hex with rfl | ⟨ec, sg, eds, hec, hsg, hne, hall, rfl⟩
  · rfl
  · have hcond : (ec = 'e' || ec = 'E') = true := by
      rcases hec with rfl | rfl <;> decide
    have hstrip : stripSignInt (sg ++ eds) =
        (if sg = ['-'] then (-1 : Int) else 1, eds) := by
      rcases hsg with rfl | rfl | rfl
      · cases eds with
        | nil => exact absurd rfl hne
        | cons e0 ed =>
          have he0 : e0.isDigit = true := by
            simp only [List.all_cons, Bool.and_eq_true] at hall
            exact hall.1
          have h1 : ¬(e0 = '-') := digit_ne he0 (by decide)
          have h2 : ¬(e0 = '+') := digit_ne he0 (by decide)
          simp +decide [stripSignInt, h1, h2]
      · simp +decide [stripSignInt]
      · simp +decide [stripSignInt]
    have hd : digitRun eds = eds.length := digitRun_all hall
    have hne' : ¬(eds.length = 0) := by
      cases eds
      · exact absurd rfl hne
      · simp
    simp only [parseExpTail, hcond, if_true, hstrip]
    simp [hd, hne', List.drop_length]

lemma parseFloatQ_shape_isSome (neg : Bool) (ds fr ex : List Char)
    (hne : ds ≠ []) (hall : ds.all Char.isDigit = true)
    (hfr : FracShape fr) (hex : ExpShape ex) :
    (parseFloatQ ((if neg then ['-'] else []) ++ (ds ++ (fr ++ ex)))).isSome = true := by
  have hstrip : stripSign ((if neg then ['-'] else []) ++ (ds ++ (fr ++ ex))) =
      ((if neg then (-1 : ℚ) else 1), ds ++ (fr ++ ex)) := by
    cases neg
    · cases ds with
      | nil => exact absurd rfl hne
      | cons d0 dsr =>
        have hd0 : d0.isDigit = true := by
          simp only [List.all_cons, Bool.and_eq_true] at hall
          exact hall.1
        have h1 : ¬(d0 = '-') := digit_ne hd0 (by decide)
        have h2 : ¬(d0 = '+') := digit_ne hd0 (by decide)
        simp [stripSign, h1, h2]
    · simp [stripSign]
  have hd : digitRun (ds ++ (fr ++ ex)) = ds.length :=
    digitRun_append_stop hall (stop_head hfr hex)
  have hlen0 : ¬(ds.length = 0) := by
    cases ds
    · exact absurd rfl hne
    · simp
  simp only [parseFloatQ, hstrip, hd, hlen0, if_false, List.take_left,
    List.drop_left]
  rcases hfr with rfl | ⟨fds, hfne, hfall, rfl⟩
  · simp only [List.nil_append]
    have hpf : parseFrac ex = (0, ex) := by
      rcases hex with rfl | ⟨ec, sg, eds, hec, _, _, _, rfl⟩
      · rfl
      · have : ¬(ec = '.') := by rcases hec with rfl | rfl <;> decide
        simp [parseFrac, this]
    obtain ⟨v, hv⟩ := Option.isSome_iff_exists.mp (parseExpTail_shape hex)
    simp [hpf, hv]
  · have hdr : digitRun (fds ++ ex) = fds.length :=
      digitRun_append_stop hfall (exp_stop hex)
    obtain ⟨v, hv⟩ := Option.isSome_iff_exists.mp (parseExpTail_shape hex)
    simp [parseFrac, hdr, List.drop_left, hv]

/-- C10: every source slice matched by the Float regex parses successfully
as a number, so the `unwrap` in the Float callback never panics and every
lexeme of float shape yields a Float token payload; the Int callback does
not share this totality — the Int-pattern-matched literal 2^63 (19 digits)
fails the i64 parse. -/
theorem c10_float_total_int_not (l : List Char) (n : Nat)
    (h : matchFloat l = some n) :
    (parseFloatQ (l.take n)).isSome = true ∧
      matchInt bigLit = some 19 ∧ parseI64 bigLit = none := by
  refine ⟨?_, by decide, by decide⟩
  obtain ⟨neg, ds, fr, ex, heq, hne, hall, hfr, hex⟩ := matchFloat_decomp h
  rw [heq]
  exact parseFloatQ_shape_isSome neg ds fr ex hne hall hfr hex

/-- Witness for C10 at the float-shaped slice 3.14. -/
theorem c10_float_total_int_not_witness :
    (parseFloatQ ((['3', '.', '1', '4'] : List Char).take 4)).isSome = true ∧
      matchInt bigLit = some 19 ∧ parseI64 bigLit = none :=
  c10_float_total_int_not ['3', '.', '1', '4'] 4 (by decide)
